import Mathlib

/-!
Shallow embedding of the markovid MCMC core (src/src/Particle.cpp,
src/src/System.cpp, src/src/main.cpp).

Doubles are modelled as real numbers, except where IEEE non-finite values
are load-bearing: there the type `FD` below (finite real, plus infinities
and NaN, without overflow) is used.  External collaborators (the R math
library's dbinom/dnorm, the cubic-spline evaluator from the misc header,
and the externally built gamma lookup tables) enter as data fields of the
`System` structure, exactly as the C++ reads them through `s_ptr`.
-/

namespace Markovid

/-- Model of a C++ double where non-finite values matter: a finite real
(no overflow is modelled), the two infinities, or NaN. -/
inductive FD where
  | fin : ℝ → FD
  | pinf : FD
  | ninf : FD
  | nan : FD

namespace FD

/-- IEEE addition on `FD` (finite + finite never overflows in this model). -/
def add : FD → FD → FD
  | fin x, fin y => fin (x + y)
  | fin _, pinf => pinf
  | pinf, fin _ => pinf
  | fin _, ninf => ninf
  | ninf, fin _ => ninf
  | pinf, pinf => pinf
  | ninf, ninf => ninf
  | pinf, ninf => nan
  | ninf, pinf => nan
  | nan, _ => nan
  | _, nan => nan

/-- IEEE negation on `FD`. -/
def neg : FD → FD
  | fin x => fin (-x)
  | pinf => ninf
  | ninf => pinf
  | nan => nan

/-- IEEE subtraction on `FD`. -/
def sub (a b : FD) : FD := a.add b.neg

/-- IEEE multiplication on `FD` (sign rules for infinities, 0 * inf = NaN). -/
noncomputable def mul : FD → FD → FD
  | fin x, fin y => fin (x * y)
  | fin x, pinf => if 0 < x then pinf else if x < 0 then ninf else nan
  | pinf, fin y => if 0 < y then pinf else if y < 0 then ninf else nan
  | fin x, ninf => if 0 < x then ninf else if x < 0 then pinf else nan
  | ninf, fin y => if 0 < y then ninf else if y < 0 then pinf else nan
  | pinf, pinf => pinf
  | ninf, ninf => pinf
  | pinf, ninf => ninf
  | ninf, pinf => ninf
  | nan, _ => nan
  | _, nan => nan

/-- IEEE strict comparison: any comparison with NaN is false. -/
def lt : FD → FD → Prop
  | fin x, fin y => x < y
  | fin _, pinf => True
  | ninf, fin _ => True
  | ninf, pinf => True
  | _, _ => False

noncomputable instance (a b : FD) : Decidable (a.lt b) := by
  cases a <;> cases b <;> simp only [lt] <;> infer_instance

/-- The C `isfinite` test. -/
def isFinite : FD → Bool
  | fin _ => true
  | _ => false

instance : Add FD := ⟨FD.add⟩
instance : Neg FD := ⟨FD.neg⟩
instance : Sub FD := ⟨FD.sub⟩
noncomputable instance : Mul FD := ⟨FD.mul⟩

end FD

/-- Model of the C `log` applied to a double: natural log on positives,
-inf at zero, NaN on negatives (Mathlib's `Real.log` would silently take
the log of the absolute value, which is not what the C code does). -/
noncomputable def clog (x : ℝ) : FD :=
  if 0 < x then FD.fin (Real.log x) else if x = 0 then FD.ninf else FD.nan

/-- The model of `DBL_MAX` (largest finite double), used in the underflow
sentinel of `get_loglike`. -/
noncomputable def DBL_MAX : ℝ := 2 ^ (1024 : ℕ) - 2 ^ (971 : ℕ)

/-- Shared read-only state: the fields of the C++ `System` object that the
sampler core reads, together with the external collaborators it calls.
`cubic_spline` (defined in a misc header, not under src/) and the R math
functions `dbinom` / `dnorm` are modelled as abstract function fields;
the gamma lookup tables arrive already built, exactly as in `System::load`. -/
structure System where
  d : ℕ
  n_node : ℕ
  node_x : List ℝ
  max_indlevel_age : ℕ
  trans_type : List ℤ
  theta_min : List ℝ
  theta_max : List ℝ
  skip_param : List Bool
  p_AI_numer : List ℤ
  p_AI_denom : List ℤ
  p_AD_numer : List ℤ
  p_AD_denom : List ℤ
  p_ID_numer : List ℤ
  p_ID_denom : List ℤ
  m_AI_count : List (List ℤ)
  m_AD_count : List (List ℤ)
  m_AC_count : List (List ℤ)
  m_ID_count : List (List ℤ)
  m_IS_count : List (List ℤ)
  m_SC_count : List (List ℤ)
  gamma_density_lookup : ℕ → ℕ → ℕ → ℝ
  gamma_tail_lookup : ℕ → ℕ → ℕ → ℝ
  cubic_spline : List ℝ → List ℝ → List ℝ → List ℝ
  dbinom : ℤ → ℤ → ℝ → FD
  dnorm : ℝ → ℝ → ℝ → ℝ

/-- Per-rung chain state: the fields of the C++ `Particle` mutated by
`update` and `coupling`. -/
structure Particle where
  theta : List ℝ
  phi : List ℝ
  theta_prop : List ℝ
  phi_prop : List ℝ
  loglike : FD
  loglike_prop : FD
  logprior : ℝ
  logprior_prop : ℝ
  bw : List ℝ
  bw_index : List ℕ
  bw_stepsize : ℝ
  accept_count : ℕ
  beta_raised : ℝ

instance : Inhabited Particle :=
  ⟨{ theta := [], phi := [], theta_prop := [], phi_prop := [],
     loglike := FD.fin 0, loglike_prop := FD.fin 0, logprior := 0, logprior_prop := 0,
     bw := [], bw_index := [], bw_stepsize := 1, accept_count := 0, beta_raised := 1 }⟩

/-- Contiguous block of the parameter vector starting at position `a`,
of length `n` (models the sequential `theta[pi++]` unpacking). -/
def seg (θ : List ℝ) (a n : ℕ) : List ℝ := (θ.drop a).take n

/-- Particle::get_delay_density with USE_LOOKUP defined: bounds-check the
discretised indices (fatal error outside the table), short-circuit the
1e-200 floor for day > 100, otherwise read the density lookup table. -/
noncomputable def get_delay_density (s : System) (x : ℤ) (m cv : ℝ) : Except Unit ℝ :=
  let m_index : ℤ := ⌊m * 100⌋
  let s_index : ℤ := ⌊cv * 100⌋
  if m_index < 0 ∨ 2000 < m_index ∨ s_index < 0 ∨ 100 < s_index ∨ x < 0 then
    Except.error ()
  else if 100 < x then
    pure 1e-200
  else
    pure (s.gamma_density_lookup m_index.toNat s_index.toNat x.toNat)

/-- Particle::get_delay_tail with USE_LOOKUP defined: same checks as the
density lookup, reading the tail table instead. -/
noncomputable def get_delay_tail (s : System) (x : ℤ) (m cv : ℝ) : Except Unit ℝ :=
  let m_index : ℤ := ⌊m * 100⌋
  let s_index : ℤ := ⌊cv * 100⌋
  if m_index < 0 ∨ 2000 < m_index ∨ s_index < 0 ∨ 100 < s_index ∨ x < 0 then
    Except.error ()
  else if 100 < x then
    pure 1e-200
  else
    pure (s.gamma_tail_lookup m_index.toNat s_index.toNat x.toNat)

/-- The per-age curves and coefficient-of-variation scalars that
`get_loglike` derives from the parameter vector before its age loop. -/
structure Curves where
  p_AI : List ℝ
  p_AD : List ℝ
  p_ID : List ℝ
  m_AI : List ℝ
  m_AD : List ℝ
  m_AC : List ℝ
  m_ID : List ℝ
  m_IS : List ℝ
  m_SC : List ℝ
  s_AI : ℝ
  s_AD : ℝ
  s_AC : ℝ
  s_ID : ℝ
  s_IS : ℝ
  s_SC : ℝ

/-- The unpacking and spline/logistic stage of `Particle::get_loglike`:
nine node blocks of length n_node are cut out of theta, each spline is
evaluated over the age sequence, probability curves go through the
logistic map to (0,1) and duration curves through 20 times the logistic
map to (0,20); the final six entries are the CV scalars. -/
noncomputable def unpack_curves (s : System) (θ : List ℝ) : Curves :=
  let n := s.n_node
  let age_seq : List ℝ := (List.range (s.max_indlevel_age + 1)).map (fun a => (a : ℝ))
  let lgs01 : ℝ → ℝ := fun v => 1 / (1 + Real.exp (-v))
  let lgs20 : ℝ → ℝ := fun v => 20 / (1 + Real.exp (-v))
  { p_AI := (s.cubic_spline s.node_x (seg θ 0 n) age_seq).map lgs01
    p_AD := (s.cubic_spline s.node_x (seg θ n n) age_seq).map lgs01
    p_ID := (s.cubic_spline s.node_x (seg θ (2 * n) n) age_seq).map lgs01
    m_AI := (s.cubic_spline s.node_x (seg θ (3 * n) n) age_seq).map lgs20
    m_AD := (s.cubic_spline s.node_x (seg θ (4 * n) n) age_seq).map lgs20
    m_AC := (s.cubic_spline s.node_x (seg θ (5 * n) n) age_seq).map lgs20
    m_ID := (s.cubic_spline s.node_x (seg θ (6 * n) n) age_seq).map lgs20
    m_IS := (s.cubic_spline s.node_x (seg θ (7 * n) n) age_seq).map lgs20
    m_SC := (s.cubic_spline s.node_x (seg θ (8 * n) n) age_seq).map lgs20
    s_AI := θ.getD (9 * n) 0
    s_AD := θ.getD (9 * n + 1) 0
    s_AC := θ.getD (9 * n + 2) 0
    s_ID := θ.getD (9 * n + 3) 0
    s_IS := θ.getD (9 * n + 4) 0
    s_SC := θ.getD (9 * n + 5) 0 }

/-- One duration family's inner loop of `get_loglike`: for every histogram
bucket with a positive count, add count times the log of the delay density
(which can abort on an out-of-range lookup). -/
noncomputable def delayFold (s : System) (ret : FD) (counts : List ℤ) (m cv : ℝ) :
    Except Unit FD :=
  (List.range counts.length).foldlM
    (fun acc j =>
      if 0 < counts.getD j 0 then do
        let dens ← get_delay_density s (j : ℤ) m cv
        pure (acc + FD.fin ((counts.getD j 0 : ℤ) : ℝ) * clog dens)
      else pure acc)
    ret

/-- The additions performed by one iteration of the age loop of
`get_loglike`: the three binomial terms followed by the six duration
families, starting from the running sum `ret` (before the finiteness
check). -/
noncomputable def perAgeSum (s : System) (c : Curves) (ret : FD) (i : ℕ) :
    Except Unit FD := do
  let r1 := ret + s.dbinom (s.p_AI_numer.getD i 0) (s.p_AI_denom.getD i 0) (c.p_AI.getD i 0)
  let r2 := r1 + s.dbinom (s.p_AD_numer.getD i 0) (s.p_AD_denom.getD i 0) (c.p_AD.getD i 0)
  let r3 := r2 + s.dbinom (s.p_ID_numer.getD i 0) (s.p_ID_denom.getD i 0) (c.p_ID.getD i 0)
  let r4 ← delayFold s r3 (s.m_AI_count.getD i []) (c.m_AI.getD i 0) c.s_AI
  let r5 ← delayFold s r4 (s.m_AD_count.getD i []) (c.m_AD.getD i 0) c.s_AD
  let r6 ← delayFold s r5 (s.m_AC_count.getD i []) (c.m_AC.getD i 0) c.s_AC
  let r7 ← delayFold s r6 (s.m_ID_count.getD i []) (c.m_ID.getD i 0) c.s_ID
  let r8 ← delayFold s r7 (s.m_IS_count.getD i []) (c.m_IS.getD i 0) c.s_IS
  delayFold s r8 (s.m_SC_count.getD i []) (c.m_SC.getD i 0) c.s_SC

/-- One full iteration of the age loop: the additions of `perAgeSum`
followed by the per-age finiteness check, which is fatal when the running
sum has become non-finite. -/
noncomputable def perAge (s : System) (c : Curves) (ret : FD) (i : ℕ) :
    Except Unit FD := do
  let v ← perAgeSum s c ret i
  if v.isFinite then pure v else Except.error ()

/-- The age loop of `get_loglike`: fold `perAge` over ages 0..n-1 starting
from 0.0. -/
noncomputable def loglike_sum (s : System) (c : Curves) (n : ℕ) : Except Unit FD :=
  (List.range n).foldlM (perAge s c) (FD.fin 0)

/-- Particle::get_loglike. The second argument `theta_i` is part of the
C++ signature but never read by the body. On return a non-finite total is
replaced by the sentinel -DBL_MAX/100. -/
noncomputable def get_loglike (s : System) (θ : List ℝ) (theta_i : ℕ) :
    Except Unit FD := do
  let c := unpack_curves s θ
  let r ← loglike_sum s c (s.max_indlevel_age + 1)
  pure (if r.isFinite then r else FD.fin (-DBL_MAX / 100))

/-- The standard logistic log-density used for the first node of each
spline group in `get_logprior`. -/
noncomputable def logisticLogpdf (x : ℝ) : ℝ := -x - 2 * Real.log (1 + Real.exp (-x))

/-- One spline-node group's prior contribution in `get_logprior`: the
first node gets the logistic log-density, every later node a Gaussian
random-walk term (R::dnorm) centred on its predecessor with sd `k`. -/
noncomputable def priorGroup (dnorm : ℝ → ℝ → ℝ → ℝ) (n : ℕ) (k : ℝ) (acc : ℝ) (g : List ℝ) : ℝ :=
  (List.range n).foldl
    (fun r i =>
      if i = 0 then r + (-(g.getD 0 0) - 2 * Real.log (1 + Real.exp (-(g.getD 0 0))))
      else r + dnorm (g.getD i 0) (g.getD (i - 1) 0) k)
    acc

/-- Particle::get_logprior. The second argument `theta_i` is part of the
C++ signature but never read by the body. -/
noncomputable def get_logprior (s : System) (θ : List ℝ) (theta_i : ℕ) : ℝ :=
  let n := s.n_node
  let k : ℝ := 0.5
  let r1 := priorGroup s.dnorm n k 0 (seg θ 0 n)
  let r2 := priorGroup s.dnorm n k r1 (seg θ n n)
  let r3 := priorGroup s.dnorm n k r2 (seg θ (2 * n) n)
  let r4 := priorGroup s.dnorm n k r3 (seg θ (3 * n) n)
  let r5 := priorGroup s.dnorm n k r4 (seg θ (4 * n) n)
  let r6 := priorGroup s.dnorm n k r5 (seg θ (5 * n) n)
  let r7 := priorGroup s.dnorm n k r6 (seg θ (6 * n) n)
  let r8 := priorGroup s.dnorm n k r7 (seg θ (7 * n) n)
  priorGroup s.dnorm n k r8 (seg θ (8 * n) n)

/-- The per-index theta to phi rule of `Particle::theta_to_phi` (the body
of its switch for one parameter). Real-valued model: valid on the in-bounds
domain of each transform kind, where the C `log` arguments are positive. -/
noncomputable def thetaToPhi_i (s : System) (θ : List ℝ) (i : ℕ) : Except Unit ℝ :=
  let t := s.trans_type.getD i 0
  if t = 0 then pure (θ.getD i 0)
  else if t = 1 then pure (Real.log (s.theta_max.getD i 0 - θ.getD i 0))
  else if t = 2 then pure (Real.log (θ.getD i 0 - s.theta_min.getD i 0))
  else if t = 3 then
    pure (Real.log (θ.getD i 0 - s.theta_min.getD i 0) -
          Real.log (s.theta_max.getD i 0 - θ.getD i 0))
  else Except.error ()

/-- Particle::theta_to_phi: the switch above applied to every index. -/
noncomputable def theta_to_phi (s : System) (θ : List ℝ) : Except Unit (List ℝ) :=
  (List.range s.d).mapM (thetaToPhi_i s θ)

/-- The per-index phi to theta rule of `Particle::phi_prop_to_theta_prop`:
map the proposed phi value at index i back to natural space. -/
noncomputable def phiPropToThetaProp_i (s : System) (φ : List ℝ) (i : ℕ) :
    Except Unit ℝ :=
  let t := s.trans_type.getD i 0
  if t = 0 then pure (φ.getD i 0)
  else if t = 1 then pure (s.theta_max.getD i 0 - Real.exp (φ.getD i 0))
  else if t = 2 then pure (Real.exp (φ.getD i 0) + s.theta_min.getD i 0)
  else if t = 3 then
    pure ((s.theta_max.getD i 0 * Real.exp (φ.getD i 0) + s.theta_min.getD i 0) /
          (1 + Real.exp (φ.getD i 0)))
  else Except.error ()

/-- Particle::get_adjustment: the log-Jacobian correction computed from
theta and theta_prop. The C `log` is modelled by `clog`, so a negative
argument yields NaN exactly as in the C code. -/
noncomputable def get_adjustment (s : System) (θ θp : List ℝ) (i : ℕ) :
    Except Unit FD :=
  let t := s.trans_type.getD i 0
  if t = 0 then pure (FD.fin 0)
  else if t = 1 then
    pure ((clog (θp.getD i 0 - s.theta_max.getD i 0)).sub
          (clog (θ.getD i 0 - s.theta_max.getD i 0)))
  else if t = 2 then
    pure ((clog (θp.getD i 0 - s.theta_min.getD i 0)).sub
          (clog (θ.getD i 0 - s.theta_min.getD i 0)))
  else if t = 3 then
    pure ((((clog (s.theta_max.getD i 0 - θp.getD i 0)).add
            (clog (θp.getD i 0 - s.theta_min.getD i 0))).sub
           (clog (s.theta_max.getD i 0 - θ.getD i 0))).sub
          (clog (θ.getD i 0 - s.theta_min.getD i 0)))
  else Except.error ()

/-- One iteration of the parameter loop of `Particle::update` (the body
for parameter `i`): `draw` is the value returned by rnorm1(phi[i], bw[i])
and `u` the value returned by runif_0_1(). Skipped parameters are left
untouched. On acceptance theta[i], phi[i], loglike and logprior are
committed, the accept counter incremented and bw[i] adapted upward; on
rejection the proposal buffers are reset and bw[i] adapted downward;
either branch increments bw_index[i]. -/
noncomputable def update_step (s : System) (β : ℝ) (p : Particle) (i : ℕ)
    (draw u : ℝ) : Except Unit Particle :=
  if s.skip_param.getD i false then pure p else do
  let phiP := p.phi_prop.set i draw
  let θpi ← phiPropToThetaProp_i s phiP i
  let thetaP := p.theta_prop.set i θpi
  let adj ← get_adjustment s p.theta thetaP i
  let llp ← get_loglike s thetaP i
  let lpp := get_logprior s thetaP i
  let MH := FD.fin β * (llp - p.loglike) + FD.fin (lpp - p.logprior) + adj
  if FD.lt (clog u) MH then
    pure { p with
      theta := p.theta.set i θpi
      phi := p.phi.set i draw
      theta_prop := thetaP
      phi_prop := phiP
      loglike := llp
      loglike_prop := llp
      logprior := lpp
      logprior_prop := lpp
      bw := p.bw.set i (Real.exp (Real.log (p.bw.getD i 0) +
              p.bw_stepsize * (1 - 0.234) / Real.sqrt (p.bw_index.getD i 0 : ℕ)))
      bw_index := p.bw_index.set i (p.bw_index.getD i 0 + 1)
      accept_count := p.accept_count + 1 }
  else
    pure { p with
      theta_prop := thetaP.set i (p.theta.getD i 0)
      phi_prop := phiP.set i (p.phi.getD i 0)
      loglike_prop := llp
      logprior_prop := lpp
      bw := p.bw.set i (Real.exp (Real.log (p.bw.getD i 0) -
              p.bw_stepsize * 0.234 / Real.sqrt (p.bw_index.getD i 0 : ℕ)))
      bw_index := p.bw_index.set i (p.bw_index.getD i 0 + 1) }

/-- Particle::update: the forward pass of `update_step` over all
parameters, with one normal draw and one uniform draw per index. -/
noncomputable def update (s : System) (β : ℝ) (p : Particle)
    (draws us : ℕ → ℝ) : Except Unit Particle :=
  (List.range s.d).foldlM (fun q i => update_step s β q i (draws i) (us i)) p

/-- One adjacent-pair step of `coupling` (main.cpp): propose swapping rung
i with rung i+1, `u` being the runif_0_1() draw. On acceptance theta, phi,
loglike and logprior are exchanged (the adaptive state stays with its
rung) and the pair's counter mc[i] is incremented. -/
noncomputable def coupleStep (pm : List Particle × List ℕ) (i : ℕ) (u : ℝ) :
    List Particle × List ℕ :=
  let pv := pm.1
  let mc := pm.2
  let p1 := pv.getD i default
  let p2 := pv.getD (i + 1) default
  let acceptance :=
    (p2.loglike * FD.fin p1.beta_raised + p1.loglike * FD.fin p2.beta_raised) -
    (p1.loglike * FD.fin p1.beta_raised + p2.loglike * FD.fin p2.beta_raised)
  if FD.lt (clog u) acceptance then
    ((pv.set i { p1 with theta := p2.theta, phi := p2.phi,
                         loglike := p2.loglike, logprior := p2.logprior }).set (i + 1)
       { p2 with theta := p1.theta, phi := p1.phi,
                 loglike := p1.loglike, logprior := p1.logprior },
     mc.set i (mc.getD i 0 + 1))
  else pm

/-- The coupling function of main.cpp: one pass over adjacent rung pairs
(i, i+1) for i = 0 .. rungs-2 in increasing order. -/
noncomputable def coupling (pv : List Particle) (mc : List ℕ) (us : List ℝ) :
    List Particle × List ℕ :=
  (List.range (pv.length - 1)).foldl (fun pm i => coupleStep pm i (us.getD i 0)) (pv, mc)

/-- The thermodynamic power assigned to rung r in run_mcmc (main.cpp):
1 when there is a single rung, otherwise (1 - r/(rungs-1)) ^ GTI_pow.
Real-power model of the C pow, faithful for a nonnegative exponent. -/
noncomputable def beta_raised (rungs : ℕ) (GTI_pow : ℝ) (r : ℕ) : ℝ :=
  if rungs = 1 then 1 else (1 - (r : ℝ) / ((rungs : ℝ) - 1)) ^ GTI_pow

/-- Modelled from the spec: the gamma density/tail lookup tables are built
outside src/ (by the R loader) from clamped gamma probabilities, so every
entry carries the 1e-200 floor ("a floor constant, not literal zero, to
keep logs finite"; the non-lookup branch of get_delay_density clamps at
1e-200 in the same way). -/
def tableFloored (t : ℕ → ℕ → ℕ → ℝ) : Prop := ∀ a b c, 1e-200 ≤ t a b c

/-- Degenerate but fully concrete shared state used to exercise the model
on closed inputs: one unbounded parameter, no spline nodes, a single age,
empty individual-level data, constant lookup tables. -/
def sW : System where
  d := 1
  n_node := 0
  node_x := []
  max_indlevel_age := 0
  trans_type := [0]
  theta_min := [0]
  theta_max := [0]
  skip_param := [false]
  p_AI_numer := []
  p_AI_denom := []
  p_AD_numer := []
  p_AD_denom := []
  p_ID_numer := []
  p_ID_denom := []
  m_AI_count := []
  m_AD_count := []
  m_AC_count := []
  m_ID_count := []
  m_IS_count := []
  m_SC_count := []
  gamma_density_lookup := fun _ _ _ => 1
  gamma_tail_lookup := fun _ _ _ => 1
  cubic_spline := fun _ _ _ => []
  dbinom := fun _ _ _ => FD.fin 0
  dnorm := fun _ _ _ => 0

/-- Variant of `sW` whose binomial terms come back NaN, driving the age
loop's running sum non-finite. -/
def sNaN : System := { sW with dbinom := fun _ _ _ => FD.nan }

/-- Variant of `sW` with a single upper-bounded (kind 1) parameter with
max = 10. -/
def sT1 : System := { sW with trans_type := [1], theta_max := [10] }

/-- Concrete empty curves value. -/
def cW : Curves :=
  { p_AI := [], p_AD := [], p_ID := [], m_AI := [], m_AD := [], m_AC := [],
    m_ID := [], m_IS := [], m_SC := [],
    s_AI := 0, s_AD := 0, s_AC := 0, s_ID := 0, s_IS := 0, s_SC := 0 }

/-- Concrete one-parameter particle state matching `sW`. -/
def pW : Particle where
  theta := [0]
  phi := [0]
  theta_prop := [0]
  phi_prop := [0]
  loglike := FD.fin 0
  loglike_prop := FD.fin 0
  logprior := 0
  logprior_prop := 0
  bw := [1]
  bw_index := [1]
  bw_stepsize := 1
  accept_count := 0
  beta_raised := 1

section Lemmas

namespace FD

@[simp] theorem add_def (a b : FD) : a + b = a.add b := rfl
@[simp] theorem sub_def (a b : FD) : a - b = a.sub b := rfl
@[simp] theorem mul_def (a b : FD) : a * b = a.mul b := rfl
@[simp] theorem add_fin_fin (x y : ℝ) : (fin x).add (fin y) = fin (x + y) := rfl
@[simp] theorem add_fin_nan (x : ℝ) : (fin x).add nan = nan := rfl
@[simp] theorem add_nan (a : FD) : nan.add a = nan := by cases a <;> rfl
@[simp] theorem neg_fin (x : ℝ) : (fin x).neg = fin (-x) := rfl
@[simp] theorem neg_nan : nan.neg = nan := rfl
@[simp] theorem sub_fin_fin (x y : ℝ) : (fin x).sub (fin y) = fin (x + -y) := rfl
@[simp] theorem sub_nan_nan : nan.sub nan = nan := rfl
@[simp] theorem mul_fin_fin (x y : ℝ) : (fin x).mul (fin y) = fin (x * y) := rfl
@[simp] theorem isFinite_fin (x : ℝ) : (fin x).isFinite = true := rfl
@[simp] theorem isFinite_nan : nan.isFinite = false := rfl
@[simp] theorem lt_fin_fin (x y : ℝ) : (fin x).lt (fin y) = (x < y) := rfl

end FD

@[simp] theorem except_pure_eq {α : Type} (a : α) :
    (pure a : Except Unit α) = Except.ok a := rfl

@[simp] theorem except_bind_ok {α β : Type} (a : α) (f : α → Except Unit β) :
    (Except.ok a >>= f : Except Unit β) = f a := rfl

@[simp] theorem except_bind_error {α β : Type} (f : α → Except Unit β) :
    ((Except.error () : Except Unit α) >>= f) = Except.error () := rfl

@[simp] theorem except_bind_ok_right {α : Type} (x : Except Unit α) :
    (x >>= Except.ok) = x := by cases x <;> rfl

@[simp] theorem clog_pos (x : ℝ) (h : 0 < x) : clog x = FD.fin (Real.log x) := by
  unfold clog; rw [if_pos h]

@[simp] theorem clog_neg (x : ℝ) (h : x < 0) : clog x = FD.nan := by
  unfold clog; rw [if_neg (by linarith), if_neg (by linarith)]

end Lemmas

/-- C10: get_loglike and get_logprior depend only on the parameter vector
(and the shared read-only model data); the theta_i index argument never
influences the returned value. -/
theorem like_prior_ignore_index (s : System) (θ : List ℝ) (i j : ℕ) :
    get_loglike s θ i = get_loglike s θ j ∧
    get_logprior s θ i = get_logprior s θ j :=
  ⟨rfl, rfl⟩

/-- C5 counterexample: with 2 rungs and GTI_pow = 1 the chain at index
rungs-1 = 1 has beta_raised = 0, not 1 (the beta = 1 chain sits at
index 0). -/
theorem beta_raised_last_ne_one : beta_raised 2 1 1 ≠ 1 := by
  unfold beta_raised
  rw [if_neg (by norm_num)]
  rw [show (1 : ℝ) - (1 : ℕ) / ((2 : ℕ) - 1) = 0 by norm_num]
  rw [Real.zero_rpow one_ne_zero]
  norm_num

/-- C5 (amended): for a nonnegative GTI_pow the beta_raised values are
monotonically non-increasing across rung indices, and for any number of
rungs the chain at index 0 is the one with beta_raised = 1. -/
theorem beta_raised_monotone_and_first :
    (∀ (rungs : ℕ) (p : ℝ) (i j : ℕ), 0 ≤ p → i ≤ j → j < rungs →
       beta_raised rungs p j ≤ beta_raised rungs p i) ∧
    (∀ (rungs : ℕ) (p : ℝ), beta_raised rungs p 0 = 1) := by
  constructor
  · intro rungs p i j hp hij hj
    by_cases h1 : rungs = 1
    · subst h1
      interval_cases j
      interval_cases i
      exact le_refl _
    · unfold beta_raised
      rw [if_neg h1, if_neg h1]
      have h2 : 2 ≤ rungs := by omega
      have hR : (1 : ℝ) ≤ (rungs : ℝ) - 1 := by
        have : (2 : ℝ) ≤ (rungs : ℝ) := by exact_mod_cast h2
        linarith
      have hRpos : (0 : ℝ) < (rungs : ℝ) - 1 := by linarith
      have hjR : (j : ℝ) ≤ (rungs : ℝ) - 1 := by
        have : (j : ℝ) + 1 ≤ (rungs : ℝ) := by exact_mod_cast hj
        linarith
      have hij' : (i : ℝ) ≤ (j : ℝ) := by exact_mod_cast hij
      apply Real.rpow_le_rpow ?_ ?_ hp
      · have : (j : ℝ) / ((rungs : ℝ) - 1) ≤ 1 := by
          rw [div_le_one hRpos]; linarith
        linarith
      · have : (i : ℝ) / ((rungs : ℝ) - 1) ≤ (j : ℝ) / ((rungs : ℝ) - 1) := by
          gcongr
        linarith
  · intro rungs p
    unfold beta_raised
    by_cases h1 : rungs = 1
    · rw [if_pos h1]
    · rw [if_neg h1]
      norm_num

/-- C5 amended witness: concrete instance with 3 rungs and GTI_pow = 2. -/
theorem beta_raised_monotone_and_first_witness :
    beta_raised 3 2 2 ≤ beta_raised 3 2 1 ∧ beta_raised 3 2 0 = 1 :=
  ⟨beta_raised_monotone_and_first.1 3 2 1 2 (by norm_num) (by norm_num) (by norm_num),
   beta_raised_monotone_and_first.2 3 2⟩

/-- C1 (code bug): for an upper-bounded (kind 1) parameter with max = 10,
current theta = 5 and proposed theta = 6 — both strictly inside the
bounds — get_adjustment computes log(theta_prop - max) - log(theta - max),
the log of two negative numbers, and so returns NaN instead of the
analytic Jacobian ratio log(max - theta_prop) - log(max - theta). -/
theorem adjustment_kind1_nan :
    get_adjustment sT1 [5] [6] 0 = Except.ok FD.nan := by
  have ht : sT1.trans_type.getD 0 0 = 1 := rfl
  have hmax : sT1.theta_max.getD 0 0 = 10 := rfl
  unfold get_adjustment
  rw [ht, hmax]
  rw [if_neg (by norm_num), if_pos rfl]
  have h6 : ([(6 : ℝ)].getD 0 0) = 6 := rfl
  have h5 : ([(5 : ℝ)].getD 0 0) = 5 := rfl
  rw [h6, h5]
  rw [clog_neg _ (by norm_num : (6 : ℝ) - 10 < 0), clog_neg _ (by norm_num : (5 : ℝ) - 10 < 0)]
  rw [FD.sub_nan_nan]
  rfl

/-- C6: both delay lookups abort on any index outside the valid domain
(mean index outside [0,2000], cv index outside [0,100], or negative day),
return the constant floor 1e-200 for day > 100 without consulting the
table, and otherwise return the table entry at the discretised indices;
in particular every call with mean 25 (index 2500) aborts. -/
theorem delay_lookup_spec (s : System) (x : ℤ) (m cv : ℝ) :
    ((⌊m * 100⌋ < 0 ∨ 2000 < ⌊m * 100⌋ ∨ ⌊cv * 100⌋ < 0 ∨ 100 < ⌊cv * 100⌋ ∨ x < 0) →
       get_delay_density s x m cv = Except.error () ∧
       get_delay_tail s x m cv = Except.error ()) ∧
    (¬(⌊m * 100⌋ < 0 ∨ 2000 < ⌊m * 100⌋ ∨ ⌊cv * 100⌋ < 0 ∨ 100 < ⌊cv * 100⌋ ∨ x < 0) →
       100 < x →
       get_delay_density s x m cv = Except.ok 1e-200 ∧
       get_delay_tail s x m cv = Except.ok 1e-200) ∧
    (¬(⌊m * 100⌋ < 0 ∨ 2000 < ⌊m * 100⌋ ∨ ⌊cv * 100⌋ < 0 ∨ 100 < ⌊cv * 100⌋ ∨ x < 0) →
       x ≤ 100 →
       get_delay_density s x m cv =
         Except.ok (s.gamma_density_lookup (⌊m * 100⌋).toNat (⌊cv * 100⌋).toNat x.toNat) ∧
       get_delay_tail s x m cv =
         Except.ok (s.gamma_tail_lookup (⌊m * 100⌋).toNat (⌊cv * 100⌋).toNat x.toNat)) ∧
    (get_delay_density s x 25 cv = Except.error () ∧
     get_delay_tail s x 25 cv = Except.error ()) := by
  have h25 : (2000 : ℤ) < ⌊(25 : ℝ) * 100⌋ := by norm_num
  refine ⟨fun h => ⟨?_, ?_⟩, fun h h100 => ⟨?_, ?_⟩, fun h h100 => ⟨?_, ?_⟩, ?_, ?_⟩
  · simp only [get_delay_density]; rw [if_pos h]
  · simp only [get_delay_tail]; rw [if_pos h]
  · simp only [get_delay_density]; rw [if_neg h, if_pos h100]; rfl
  · simp only [get_delay_tail]; rw [if_neg h, if_pos h100]; rfl
  · simp only [get_delay_density]; rw [if_neg h, if_neg (not_lt.mpr h100)]; rfl
  · simp only [get_delay_tail]; rw [if_neg h, if_neg (not_lt.mpr h100)]; rfl
  · simp only [get_delay_density]; rw [if_pos (Or.inr (Or.inl h25))]
  · simp only [get_delay_tail]; rw [if_pos (Or.inr (Or.inl h25))]

/-- C6 witness: concrete calls exercising the abort, the day > 100 floor
and the in-range table read. -/
theorem delay_lookup_spec_witness :
    (get_delay_density sW 5 25 0.5 = Except.error () ∧
     get_delay_tail sW 5 25 0.5 = Except.error ()) ∧
    get_delay_density sW 200 1 0.5 = Except.ok 1e-200 ∧
    get_delay_density sW 5 1 0.5 = Except.ok 1 := by
  have hm : ⌊(1 : ℝ) * 100⌋ = (100 : ℤ) := by norm_num
  have hcv : ⌊(0.5 : ℝ) * 100⌋ = (50 : ℤ) := by norm_num
  have hgood : ∀ y : ℤ, 0 ≤ y →
      ¬(⌊(1 : ℝ) * 100⌋ < 0 ∨ 2000 < ⌊(1 : ℝ) * 100⌋ ∨ ⌊(0.5 : ℝ) * 100⌋ < 0 ∨
        100 < ⌊(0.5 : ℝ) * 100⌋ ∨ y < 0) := by
    intro y hy
    rw [hm, hcv]
    push_neg
    refine ⟨by norm_num, by norm_num, by norm_num, by norm_num, hy⟩
  refine ⟨(delay_lookup_spec sW 5 25 0.5).2.2.2, ?_, ?_⟩
  · exact ((delay_lookup_spec sW 200 1 0.5).2.1 (hgood 200 (by norm_num)) (by norm_num)).1
  · exact ((delay_lookup_spec sW 5 1 0.5).2.2.1 (hgood 5 (by norm_num)) (by norm_num)).1

/-- C8: when the lookup tables carry the 1e-200 floor the spec ascribes to
their construction, every successful delay density/tail call returns a
value that is non-negative and at least 1e-200. -/
theorem delay_floor (s : System) (x : ℤ) (m cv : ℝ)
    (hd : tableFloored s.gamma_density_lookup)
    (ht : tableFloored s.gamma_tail_lookup) :
    (∀ v, get_delay_density s x m cv = Except.ok v → 0 ≤ v ∧ 1e-200 ≤ v) ∧
    (∀ v, get_delay_tail s x m cv = Except.ok v → 0 ≤ v ∧ 1e-200 ≤ v) := by
  have lower : ∀ v : ℝ, (1e-200 : ℝ) ≤ v → 0 ≤ v ∧ 1e-200 ≤ v := by
    intro v hv
    refine ⟨le_trans (by norm_num) hv, hv⟩
  constructor
  · intro v hv
    simp only [get_delay_density] at hv
    split_ifs at hv with hbad hx
    · have h : (1e-200 : ℝ) = v := by injection hv
      exact lower v (le_of_eq h)
    · have h : s.gamma_density_lookup (⌊m * 100⌋).toNat (⌊cv * 100⌋).toNat x.toNat = v := by
        injection hv
      exact lower v (h ▸ hd _ _ _)
  · intro v hv
    simp only [get_delay_tail] at hv
    split_ifs at hv with hbad hx
    · have h : (1e-200 : ℝ) = v := by injection hv
      exact lower v (le_of_eq h)
    · have h : s.gamma_tail_lookup (⌊m * 100⌋).toNat (⌊cv * 100⌋).toNat x.toNat = v := by
        injection hv
      exact lower v (h ▸ ht _ _ _)

/-- C8 witness: with the constant table of `sW` (which satisfies the
floor), the in-range call at day 5, mean 1, cv 0.5 returns 1, which is
non-negative and at least 1e-200. -/
theorem delay_floor_witness :
    get_delay_density sW 5 1 0.5 = Except.ok 1 ∧ (0 : ℝ) ≤ 1 ∧ (1e-200 : ℝ) ≤ 1 := by
  have hd : tableFloored sW.gamma_density_lookup := by
    intro a b c
    norm_num [sW]
  have ht : tableFloored sW.gamma_tail_lookup := by
    intro a b c
    norm_num [sW]
  have hm : ⌊(1 : ℝ) * 100⌋ = (100 : ℤ) := by norm_num
  have hcv : ⌊(0.5 : ℝ) * 100⌋ = (50 : ℤ) := by norm_num
  have hok : get_delay_density sW 5 1 0.5 = Except.ok 1 := by
    simp only [get_delay_density]
    rw [if_neg ?_, if_neg (by norm_num)]
    · rfl
    · rw [hm, hcv]
      push_neg
      refine ⟨by norm_num, by norm_num, by norm_num, by norm_num, by norm_num⟩
  have := (delay_floor sW 5 1 0.5 hd ht).1 1 hok
  exact ⟨hok, this⟩

/-- C9: for every valid transform kind, mapping theta[i] strictly inside
its bounds (unconstrained for kind 0) through the theta-to-phi rule and
then the phi-to-theta rule returns the original value exactly over the
reals. -/
theorem transform_roundtrip (s : System) (θ : List ℝ) (i : ℕ) (x : ℝ)
    (hx : θ.getD i 0 = x)
    (hk : s.trans_type.getD i 0 = 0 ∨
          (s.trans_type.getD i 0 = 1 ∧ x < s.theta_max.getD i 0) ∨
          (s.trans_type.getD i 0 = 2 ∧ s.theta_min.getD i 0 < x) ∨
          (s.trans_type.getD i 0 = 3 ∧ s.theta_min.getD i 0 < x ∧
           x < s.theta_max.getD i 0)) :
    ∃ φv, thetaToPhi_i s θ i = Except.ok φv ∧
      ∀ ψ : List ℝ, ψ.getD i 0 = φv → phiPropToThetaProp_i s ψ i = Except.ok x := by
  obtain h0 | ⟨h1, hb⟩ | ⟨h2, hb⟩ | ⟨h3, hb1, hb2⟩ := hk
  · refine ⟨x, ?_, ?_⟩
    · simp only [thetaToPhi_i]
      rw [h0, if_pos rfl, hx]
      rfl
    · intro ψ hψ
      simp only [phiPropToThetaProp_i]
      rw [h0, if_pos rfl, hψ]
      rfl
  · refine ⟨Real.log (s.theta_max.getD i 0 - x), ?_, ?_⟩
    · simp only [thetaToPhi_i]
      rw [h1, if_neg (by norm_num), if_pos rfl, hx]
      rfl
    · intro ψ hψ
      simp only [phiPropToThetaProp_i]
      rw [h1, if_neg (by norm_num), if_pos rfl, hψ,
          Real.exp_log (by linarith : (0 : ℝ) < s.theta_max.getD i 0 - x),
          sub_sub_cancel]
      rfl
  · refine ⟨Real.log (x - s.theta_min.getD i 0), ?_, ?_⟩
    · simp only [thetaToPhi_i]
      rw [h2, if_neg (by norm_num), if_neg (by norm_num), if_pos rfl, hx]
      rfl
    · intro ψ hψ
      simp only [phiPropToThetaProp_i]
      rw [h2, if_neg (by norm_num), if_neg (by norm_num), if_pos rfl, hψ,
          Real.exp_log (by linarith : (0 : ℝ) < x - s.theta_min.getD i 0),
          sub_add_cancel]
      rfl
  · refine ⟨Real.log (x - s.theta_min.getD i 0) -
        Real.log (s.theta_max.getD i 0 - x), ?_, ?_⟩
    · simp only [thetaToPhi_i]
      rw [h3, if_neg (by norm_num), if_neg (by norm_num), if_neg (by norm_num),
          if_pos rfl, hx]
      rfl
    · intro ψ hψ
      have hxm : (0 : ℝ) < x - s.theta_min.getD i 0 := by linarith
      have hmx : (0 : ℝ) < s.theta_max.getD i 0 - x := by linarith
      have hne : s.theta_max.getD i 0 - x ≠ 0 := ne_of_gt hmx
      simp only [phiPropToThetaProp_i]
      rw [h3, if_neg (by norm_num), if_neg (by norm_num), if_neg (by norm_num),
          if_pos rfl, hψ, Real.exp_sub, Real.exp_log hxm, Real.exp_log hmx]
      have ht : (x - s.theta_min.getD i 0) / (s.theta_max.getD i 0 - x) *
          (s.theta_max.getD i 0 - x) = x - s.theta_min.getD i 0 :=
        div_mul_cancel₀ _ hne
      have hden : 1 + (x - s.theta_min.getD i 0) / (s.theta_max.getD i 0 - x) ≠ 0 := by
        have hpos : 0 < (x - s.theta_min.getD i 0) / (s.theta_max.getD i 0 - x) :=
          div_pos hxm hmx
        positivity
      have hval : (s.theta_max.getD i 0 *
            ((x - s.theta_min.getD i 0) / (s.theta_max.getD i 0 - x)) +
            s.theta_min.getD i 0) /
          (1 + (x - s.theta_min.getD i 0) / (s.theta_max.getD i 0 - x)) = x := by
        rw [div_eq_iff hden]
        linear_combination ht
      rw [hval]
      rfl

/-- C9 witness: round trip through the identity (kind 0) transform of `sW`
at theta = 3. -/
theorem transform_roundtrip_witness :
    thetaToPhi_i sW [3] 0 = Except.ok 3 ∧
    phiPropToThetaProp_i sW [3] 0 = Except.ok 3 := by
  have hks : sW.trans_type.getD 0 0 = 0 := rfl
  obtain ⟨φv, hfwd, hback⟩ := transform_roundtrip sW [3] 0 3 rfl (Or.inl hks)
  have hcomp : thetaToPhi_i sW [3] 0 = Except.ok 3 := by
    simp only [thetaToPhi_i]
    rw [hks, if_pos rfl]
    rfl
  have hφ : φv = 3 := by
    have := hcomp.symm.trans hfwd
    exact (Except.ok.injEq _ _).mp this |>.symm
  exact ⟨hcomp, hback [3] (by rw [hφ]; rfl)⟩

theorem loglike_sum_succ (s : System) (c : Curves) (n : ℕ) :
    loglike_sum s c (n + 1) = loglike_sum s c n >>= fun a => perAge s c a n := by
  unfold loglike_sum
  rw [List.range_succ, List.foldlM_append]
  simp only [List.foldlM_cons, List.foldlM_nil]
  cases (List.range n).foldlM (perAge s c) (FD.fin 0) with
  | error e => rfl
  | ok a =>
    simp only [except_bind_ok]
    exact except_bind_ok_right _

theorem loglike_sum_error_mono (s : System) (c : Curves) {k n : ℕ} (hkn : k ≤ n)
    (herr : loglike_sum s c k = Except.error ()) :
    loglike_sum s c n = Except.error () := by
  induction n with
  | zero =>
    have : k = 0 := by omega
    subst this
    exact herr
  | succ n ih =>
    by_cases hk : k ≤ n
    · rw [loglike_sum_succ, ih hk]
      rfl
    · have : k = n + 1 := by omega
      subst this
      exact herr

/-- C7: the age loop of get_loglike checks the running sum for finiteness
after every age and aborts the whole evaluation when it is non-finite; and
every value get_loglike actually returns is finite (a non-finite final
total would be replaced by the sentinel -DBL_MAX/100). -/
theorem loglike_finite_checks :
    (∀ (s : System) (c : Curves) (n k : ℕ) (acc v : FD),
       k < n → loglike_sum s c k = Except.ok acc →
       perAgeSum s c acc k = Except.ok v → v.isFinite = false →
       loglike_sum s c n = Except.error ()) ∧
    (∀ (s : System) (θ : List ℝ) (ti : ℕ) (r : FD),
       get_loglike s θ ti = Except.ok r → r.isFinite = true) := by
  constructor
  · intro s c n k acc v hk hok hsum hfin
    have hstep : perAge s c acc k = Except.error () := by
      unfold perAge
      rw [hsum]
      simp [hfin]
    have hk1 : loglike_sum s c (k + 1) = Except.error () := by
      rw [loglike_sum_succ, hok]
      simpa using hstep
    exact loglike_sum_error_mono s c (by omega : k + 1 ≤ n) hk1
  · intro s θ ti r hok
    have hok2 : (loglike_sum s (unpack_curves s θ) (s.max_indlevel_age + 1) >>=
        fun a => pure (if a.isFinite then a else FD.fin (-DBL_MAX / 100))) =
        Except.ok r := hok
    clear hok
    cases hres : loglike_sum s (unpack_curves s θ) (s.max_indlevel_age + 1) with
    | error e =>
      cases e
      rw [hres] at hok2
      simp at hok2
    | ok a =>
      rw [hres] at hok2
      simp only [except_bind_ok, except_pure_eq, Except.ok.injEq] at hok2
      by_cases hfin : a.isFinite
      · rw [if_pos hfin] at hok2
        rw [← hok2]
        exact hfin
      · rw [if_neg hfin] at hok2
        rw [← hok2]
        rfl

/-- C7 witness: a NaN binomial term makes the running sum non-finite at
age 0 and the loop aborts; a concrete clean run returns the finite value
0. -/
theorem loglike_finite_checks_witness :
    loglike_sum sNaN cW 1 = Except.error () ∧ (FD.fin 0).isFinite = true := by
  have h0 : loglike_sum sNaN cW 0 = Except.ok (FD.fin 0) := rfl
  have hsum : perAgeSum sNaN cW (FD.fin 0) 0 = Except.ok FD.nan := rfl
  have hll : get_loglike sW [] 0 = Except.ok (FD.fin 0) := by
    have hraw : get_loglike sW [] 0 = Except.ok (FD.fin (0 + 0 + 0 + 0)) := rfl
    rw [hraw]
    norm_num
  exact ⟨loglike_finite_checks.1 sNaN cW 1 0 (FD.fin 0) FD.nan (by norm_num) h0 hsum rfl,
         loglike_finite_checks.2 sW [] 0 (FD.fin 0) hll⟩

/-- C2: in a non-skipped single-parameter step of Particle::update the
Metropolis-Hastings log-ratio is beta*(loglike_prop - loglike) +
(logprior_prop - logprior) + adjustment, the proposal is accepted exactly
when log(u) compares below that ratio, and on acceptance theta[i], phi[i],
loglike and logprior are committed to the proposed values with the accept
counter incremented by one (on rejection all of them are left unchanged). -/
theorem update_step_mh (s : System) (β : ℝ) (p : Particle) (i : ℕ) (draw u : ℝ)
    (θpi : ℝ) (adj llp : FD)
    (hskip : s.skip_param.getD i false = false)
    (hθp : phiPropToThetaProp_i s (p.phi_prop.set i draw) i = Except.ok θpi)
    (hadj : get_adjustment s p.theta (p.theta_prop.set i θpi) i = Except.ok adj)
    (hll : get_loglike s (p.theta_prop.set i θpi) i = Except.ok llp) :
    ∃ p', update_step s β p i draw u = Except.ok p' ∧
      (FD.lt (clog u)
          (FD.fin β * (llp - p.loglike) +
           FD.fin (get_logprior s (p.theta_prop.set i θpi) i - p.logprior) + adj) →
        p'.theta = p.theta.set i θpi ∧ p'.phi = p.phi.set i draw ∧
        p'.loglike = llp ∧
        p'.logprior = get_logprior s (p.theta_prop.set i θpi) i ∧
        p'.accept_count = p.accept_count + 1) ∧
      (¬ FD.lt (clog u)
          (FD.fin β * (llp - p.loglike) +
           FD.fin (get_logprior s (p.theta_prop.set i θpi) i - p.logprior) + adj) →
        p'.theta = p.theta ∧ p'.phi = p.phi ∧ p'.loglike = p.loglike ∧
        p'.logprior = p.logprior ∧ p'.accept_count = p.accept_count) := by
  unfold update_step
  rw [if_neg (by rw [hskip]; exact Bool.false_ne_true)]
  simp only [hθp, except_bind_ok, hadj, hll]
  by_cases hacc : FD.lt (clog u)
      (FD.fin β * (llp - p.loglike) +
       FD.fin (get_logprior s (p.theta_prop.set i θpi) i - p.logprior) + adj)
  · rw [if_pos hacc]
    exact ⟨_, rfl, fun _ => ⟨rfl, rfl, rfl, rfl, rfl⟩, fun h => absurd hacc h⟩
  · rw [if_neg hacc]
    exact ⟨_, rfl, fun h => absurd h hacc, fun _ => ⟨rfl, rfl, rfl, rfl, rfl⟩⟩

/-- C2 witness: concrete non-skipped step on the one-parameter system. -/
theorem update_step_mh_witness :
    ∃ p', update_step sW 1 pW 0 2 1 = Except.ok p' := by
  obtain ⟨p', hp, -, -⟩ :=
    update_step_mh sW 1 pW 0 2 1 2 (FD.fin 0) (FD.fin (0 + 0 + 0 + 0)) rfl rfl rfl rfl
  exact ⟨p', hp⟩

/-- C4: in a non-skipped single-parameter step of Particle::update,
bw_index[i] is incremented by one in both branches, and bw[i] becomes
exp(log(bw[i]) + bw_stepsize*(1-0.234)/sqrt(bw_index[i])) on acceptance
and exp(log(bw[i]) - bw_stepsize*0.234/sqrt(bw_index[i])) on rejection
(with bw_index[i] read before the increment). -/
theorem update_step_bw (s : System) (β : ℝ) (p : Particle) (i : ℕ) (draw u : ℝ)
    (θpi : ℝ) (adj llp : FD)
    (hskip : s.skip_param.getD i false = false)
    (hθp : phiPropToThetaProp_i s (p.phi_prop.set i draw) i = Except.ok θpi)
    (hadj : get_adjustment s p.theta (p.theta_prop.set i θpi) i = Except.ok adj)
    (hll : get_loglike s (p.theta_prop.set i θpi) i = Except.ok llp) :
    ∃ p', update_step s β p i draw u = Except.ok p' ∧
      p'.bw_index = p.bw_index.set i (p.bw_index.getD i 0 + 1) ∧
      (FD.lt (clog u)
          (FD.fin β * (llp - p.loglike) +
           FD.fin (get_logprior s (p.theta_prop.set i θpi) i - p.logprior) + adj) →
        p'.bw = p.bw.set i (Real.exp (Real.log (p.bw.getD i 0) +
          p.bw_stepsize * (1 - 0.234) / Real.sqrt (p.bw_index.getD i 0 : ℕ)))) ∧
      (¬ FD.lt (clog u)
          (FD.fin β * (llp - p.loglike) +
           FD.fin (get_logprior s (p.theta_prop.set i θpi) i - p.logprior) + adj) →
        p'.bw = p.bw.set i (Real.exp (Real.log (p.bw.getD i 0) -
          p.bw_stepsize * 0.234 / Real.sqrt (p.bw_index.getD i 0 : ℕ)))) := by
  unfold update_step
  rw [if_neg (by rw [hskip]; exact Bool.false_ne_true)]
  simp only [hθp, except_bind_ok, hadj, hll]
  by_cases hacc : FD.lt (clog u)
      (FD.fin β * (llp - p.loglike) +
       FD.fin (get_logprior s (p.theta_prop.set i θpi) i - p.logprior) + adj)
  · rw [if_pos hacc]
    exact ⟨_, rfl, rfl, fun _ => rfl, fun h => absurd hacc h⟩
  · rw [if_neg hacc]
    exact ⟨_, rfl, rfl, fun h => absurd h hacc, fun _ => rfl⟩

/-- C4 witness: concrete non-skipped step, exhibiting the bw_index
increment. -/
theorem update_step_bw_witness :
    ∃ p', update_step sW 1 pW 0 2 1 = Except.ok p' ∧
      p'.bw_index = pW.bw_index.set 0 (pW.bw_index.getD 0 0 + 1) := by
  obtain ⟨p', hp, hbwi, -, -⟩ :=
    update_step_bw sW 1 pW 0 2 1 2 (FD.fin 0) (FD.fin (0 + 0 + 0 + 0)) rfl rfl rfl rfl
  exact ⟨p', hp, hbwi⟩

/-- C3: coupling is a single pass over adjacent rung pairs (i, i+1) for
i = 0 .. rungs-2 in increasing order; each step computes the acceptance
log-ratio (L2*beta1 + L1*beta2) - (L1*beta1 + L2*beta2) from the pair's
current log-likelihoods and inverse-temperature powers, and on acceptance
swaps exactly theta, phi, loglike and logprior between the two rungs
(bw, bw_index, bw_stepsize, accept_count and beta_raised stay with their
rung) and increments the pair's counter mc[i] by one; on rejection
nothing changes. -/
theorem coupling_pass :
    (∀ (pv : List Particle) (mc : List ℕ) (us : List ℝ),
       coupling pv mc us =
         (List.range (pv.length - 1)).foldl
           (fun pm i => coupleStep pm i (us.getD i 0)) (pv, mc)) ∧
    (∀ (pv : List Particle) (mc : List ℕ) (i : ℕ) (u : ℝ), i + 1 < pv.length →
      (FD.lt (clog u)
          (((pv.getD (i + 1) default).loglike * FD.fin (pv.getD i default).beta_raised +
            (pv.getD i default).loglike * FD.fin (pv.getD (i + 1) default).beta_raised) -
           ((pv.getD i default).loglike * FD.fin (pv.getD i default).beta_raised +
            (pv.getD (i + 1) default).loglike * FD.fin (pv.getD (i + 1) default).beta_raised)) →
        coupleStep (pv, mc) i u =
          ((pv.set i { pv.getD i default with
              theta := (pv.getD (i + 1) default).theta
              phi := (pv.getD (i + 1) default).phi
              loglike := (pv.getD (i + 1) default).loglike
              logprior := (pv.getD (i + 1) default).logprior }).set (i + 1)
             { pv.getD (i + 1) default with
               theta := (pv.getD i default).theta
               phi := (pv.getD i default).phi
               loglike := (pv.getD i default).loglike
               logprior := (pv.getD i default).logprior },
           mc.set i (mc.getD i 0 + 1))) ∧
      (¬ FD.lt (clog u)
          (((pv.getD (i + 1) default).loglike * FD.fin (pv.getD i default).beta_raised +
            (pv.getD i default).loglike * FD.fin (pv.getD (i + 1) default).beta_raised) -
           ((pv.getD i default).loglike * FD.fin (pv.getD i default).beta_raised +
            (pv.getD (i + 1) default).loglike * FD.fin (pv.getD (i + 1) default).beta_raised)) →
        coupleStep (pv, mc) i u = (pv, mc))) := by
  refine ⟨fun pv mc us => rfl, fun pv mc i u hi => ⟨fun hacc => ?_, fun hacc => ?_⟩⟩
  · unfold coupleStep
    rw [if_pos hacc]
  · unfold coupleStep
    rw [if_neg hacc]

/-- C3 witness: a concrete rejected swap proposal between the two rungs of
a two-particle ensemble leaves the ensemble and the counters unchanged. -/
theorem coupling_pass_witness :
    coupleStep ([pW, pW], [0]) 0 1 = ([pW, pW], [0]) := by
  have hlen : 0 + 1 < ([pW, pW] : List Particle).length := by simp
  have hrej : ¬ FD.lt (clog 1)
      ((([pW, pW].getD (0 + 1) default).loglike *
          FD.fin ([pW, pW].getD 0 default).beta_raised +
        ([pW, pW].getD 0 default).loglike *
          FD.fin ([pW, pW].getD (0 + 1) default).beta_raised) -
       (([pW, pW].getD 0 default).loglike *
          FD.fin ([pW, pW].getD 0 default).beta_raised +
        ([pW, pW].getD (0 + 1) default).loglike *
          FD.fin ([pW, pW].getD (0 + 1) default).beta_raised)) := by
    have hc : clog 1 = FD.fin (Real.log 1) := clog_pos 1 (by norm_num)
    have hval : ([pW, pW].getD 0 default).loglike = FD.fin 0 := rfl
    have hval2 : ([pW, pW].getD (0 + 1) default).loglike = FD.fin 0 := rfl
    have hβ : ([pW, pW].getD 0 default).beta_raised = 1 := rfl
    have hβ2 : ([pW, pW].getD (0 + 1) default).beta_raised = 1 := rfl
    rw [hc, hval, hval2, hβ, hβ2]
    simp only [FD.mul_def, FD.mul_fin_fin, FD.add_def, FD.add_fin_fin,
      FD.sub_def, FD.sub_fin_fin, FD.lt_fin_fin, Real.log_one]
    norm_num
  exact (coupling_pass.2 [pW, pW] [0] 0 1 hlen).2 hrej

end Markovid
